import Mathlib

/-!
Shallow embedding of the harmonograph simulation core (harmnograph.py):
the damped-oscillator model (`Pendulum`), the composite curve
(`Harmonograph`), the step-size calibration loop (`calibrateAux`), the
convergence detector (`DistanceStop`), the sampling generator
(`generateAux`) and the canvas scaler (`scale_path`).

Python floats are modelled as real numbers; Python `int(x)` (truncation
toward zero) is `truncInt`; a raised exception or a loop that has not yet
returned is `none` in an `Option` result.  Unbounded `while` loops are
embedded with an explicit fuel argument: the loop returns a value exactly
when some amount of fuel suffices.
-/

/-- Python `int(x)` applied to a float: truncation toward zero. -/
noncomputable def truncInt (x : ℝ) : ℤ :=
  if 0 ≤ x then ⌊x⌋ else ⌈x⌉

/-- `euclidean_distance` from harmnograph.py: `sqrt((x1-x2)**2 + (y1-y2)**2)`. -/
noncomputable def euclidean_distance (xy1 xy2 : ℝ × ℝ) : ℝ :=
  Real.sqrt ((xy1.1 - xy2.1) ^ 2 + (xy1.2 - xy2.2) ^ 2)

/-- One damped oscillator term (class `Pendulum`). -/
structure Pendulum where
  frequency : ℝ
  amplitude : ℝ
  damping : ℝ
  phase : ℝ

/-- `Pendulum.__call__`: `amplitude * sin(t*frequency + phase) * e**(-damping*t)`. -/
noncomputable def Pendulum.eval (p : Pendulum) (t : ℝ) : ℝ :=
  p.amplitude * Real.sin (t * p.frequency + p.phase) * Real.exp (-p.damping * t)

/-- Sum of one axis's pendulum terms at a timestamp
(`sum([xpen(timestamp) for xpen in self.xset])`). -/
noncomputable def axisSum (pens : List Pendulum) (t : ℝ) : ℝ :=
  (pens.map (fun p => p.eval t)).sum

/-- The composite curve (class `Harmonograph`): two axis term lists, the
centering flag and the two offsets stored by `__init__`. -/
structure Harmonograph where
  xset : List Pendulum
  yset : List Pendulum
  center : Bool
  x_offset : ℤ
  y_offset : ℤ

/-- `Harmonograph.__init__`: stores the term lists and computes
`x_offset = int(sum(amplitudes of xset)) + 50` and the analogous
`y_offset` once, at construction. -/
noncomputable def Harmonograph.init (xset yset : List Pendulum) (center : Bool := true) :
    Harmonograph :=
  { xset := xset
    yset := yset
    center := center
    x_offset := truncInt ((xset.map Pendulum.amplitude).sum) + 50
    y_offset := truncInt ((yset.map Pendulum.amplitude).sum) + 50 }

/-- `Harmonograph.__call__`: sums each axis's terms at the timestamp; when
`center` is set it adds `x_offset` to x and `x_offset` (not `y_offset`)
to y, exactly as lines 80-82 of the source do. -/
noncomputable def Harmonograph.eval (h : Harmonograph) (t : ℝ) : ℝ × ℝ :=
  if h.center then
    (axisSum h.xset t + (h.x_offset : ℝ), axisSum h.yset t + (h.x_offset : ℝ))
  else
    (axisSum h.xset t, axisSum h.yset t)

/-- The success test of one iteration of `Harmonograph.calibrate`: the
distance between `self(0)` and `self(pi/ts)` is below the threshold. -/
noncomputable def calibOk (h : Harmonograph) (threshold : ℝ) (ts : ℕ) : Prop :=
  euclidean_distance (h.eval 0) (h.eval (Real.pi / ts)) < threshold

/-- `Harmonograph.calibrate`'s unbounded `while True` loop, embedded with
fuel: `calibrateAux h θ fuel ts` runs at most `fuel` iterations starting
from counter value `ts`; `none` means the loop did not return within the
given fuel (the source has no iteration cap).  The source starts the
counter at `ts = 1` and increments it after each failed test. -/
noncomputable def calibrateAux (h : Harmonograph) (threshold : ℝ) :
    ℕ → ℕ → Option ℝ
  | 0, _ => none
  | fuel + 1, ts =>
    if euclidean_distance (h.eval 0) (h.eval (Real.pi / ts)) < threshold then
      some (Real.pi / ts)
    else
      calibrateAux h threshold fuel (ts + 1)

/-- Python list slice `l[:s]` for an `int` bound `s` (negative bounds count
from the end, clipped at zero). -/
def pySliceTo (s : ℤ) (l : List α) : List α :=
  if 0 ≤ s then l.take s.toNat else l.take (l.length - (-s).toNat)

/-- The convergence detector (class `DistanceStop`): window size `steps`,
threshold, the recorded distances (newest first) and the last position. -/
structure DistanceStop where
  steps : ℤ
  threshold : ℝ
  values : List ℝ
  last_pos : Option (ℝ × ℝ)

/-- `DistanceStop.__init__`: stores `steps` and `threshold` unchecked and
starts with no recorded distances and no last position. -/
def DistanceStop.init (steps : ℤ) (threshold : ℝ) : DistanceStop :=
  { steps := steps, threshold := threshold, values := [], last_pos := none }

/-- The distance window after one `test` call: when a last position exists,
the new distance is pushed on the front and the list is truncated to
`steps` entries (`self.values.insert(0, d); self.values = self.values[:self.steps]`);
on the very first call the list is left empty. -/
noncomputable def DistanceStop.newValues (d : DistanceStop) (pos : ℝ × ℝ) : List ℝ :=
  match d.last_pos with
  | some lp => pySliceTo d.steps (euclidean_distance lp pos :: d.values)
  | none => d.values

/-- `DistanceStop.test`: updates the window and the last position, returns
`false` while fewer than `steps` distances are recorded, otherwise compares
the average distance with the threshold.  The result is `none` when the
average would divide by zero (`len(self.values) == 0` with
`steps <= 0`), which raises `ZeroDivisionError` in the source. -/
noncomputable def DistanceStop.test (d : DistanceStop) (pos : ℝ × ℝ) :
    Option Bool × DistanceStop :=
  let v := d.newValues pos
  let d' : DistanceStop :=
    { steps := d.steps, threshold := d.threshold, values := v, last_pos := some pos }
  if (v.length : ℤ) < d.steps then (some false, d')
  else if v.length = 0 then (none, d')
  else if v.sum / (v.length : ℝ) < d.threshold then (some true, d')
  else (some false, d')

/-- Feeds a list of positions to a detector one at a time, collecting each
call's result and threading the mutated state. -/
noncomputable def runDetector : DistanceStop → List (ℝ × ℝ) → List (Option Bool) × DistanceStop
  | d, [] => ([], d)
  | d, p :: ps =>
    ((d.test p).1 :: (runDetector (d.test p).2 ps).1, (runDetector (d.test p).2 ps).2)

/-- `HarmonographRender.generate`'s sampling loop, embedded with fuel.
Each iteration evaluates the curve at `ts = resolution * step + tsmin` and
yields the position; with `tsmax` set the loop continues while
`ts < tsmax` and the detector is never consulted, otherwise it stops as
soon as the detector's `test` returns `true`.  `none` means the loop did
not finish within the fuel (or the detector raised). -/
noncomputable def generateAux (h : Harmonograph) (resolution tsmin : ℝ)
    (tsmax : Option ℝ) : ℕ → ℕ → DistanceStop → Option (List (ℝ × ℝ))
  | 0, _, _ => none
  | fuel + 1, step, dstep =>
    match tsmax with
    | some m =>
      if resolution * step + tsmin < m then
        Option.map (fun l => h.eval (resolution * step + tsmin) :: l)
          (generateAux h resolution tsmin (some m) fuel (step + 1) dstep)
      else
        some [h.eval (resolution * step + tsmin)]
    | none =>
      match dstep.test (h.eval (resolution * step + tsmin)) with
      | (some b, d') =>
        if b then some [h.eval (resolution * step + tsmin)]
        else
          Option.map (fun l => h.eval (resolution * step + tsmin) :: l)
            (generateAux h resolution tsmin none fuel (step + 1) d')
      | (none, _) => none

/-- Python `min` over a nonempty float list, as a left fold from the first
element. -/
noncomputable def listMin : ℝ → List ℝ → ℝ
  | a, [] => a
  | a, x :: xs => listMin (min a x) xs

/-- Python `max` over a nonempty float list, as a left fold from the first
element. -/
noncomputable def listMax : ℝ → List ℝ → ℝ
  | a, [] => a
  | a, x :: xs => listMax (max a x) xs

/-- `min(x_list)` over the path headed by `q`. -/
noncomputable def pathXMin (q : ℝ × ℝ) (qs : List (ℝ × ℝ)) : ℝ :=
  listMin q.1 (qs.map Prod.fst)

/-- `max(x_list)` over the path headed by `q`. -/
noncomputable def pathXMax (q : ℝ × ℝ) (qs : List (ℝ × ℝ)) : ℝ :=
  listMax q.1 (qs.map Prod.fst)

/-- `min(y_list)` over the path headed by `q`. -/
noncomputable def pathYMin (q : ℝ × ℝ) (qs : List (ℝ × ℝ)) : ℝ :=
  listMin q.2 (qs.map Prod.snd)

/-- `max(y_list)` over the path headed by `q`. -/
noncomputable def pathYMax (q : ℝ × ℝ) (qs : List (ℝ × ℝ)) : ℝ :=
  listMax q.2 (qs.map Prod.snd)

/-- The per-point mapping of `HarmonographRender.scale_path`:
`(int((x - x_min)*x_scale + x_offset), int((y - y_min)*y_scale + y_offset))`
with `x_scale = dx / (x_max - x_min)` and `x_offset = cx - dx/2.0`
(and analogously for y). -/
noncomputable def scaleFun (dx dy cx cy : ℤ) (q : ℝ × ℝ) (qs : List (ℝ × ℝ))
    (pt : ℝ × ℝ) : ℤ × ℤ :=
  (truncInt ((pt.1 - pathXMin q qs) * ((dx : ℝ) / (pathXMax q qs - pathXMin q qs)) +
      ((cx : ℝ) - (dx : ℝ) / 2)),
   truncInt ((pt.2 - pathYMin q qs) * ((dy : ℝ) / (pathYMax q qs - pathYMin q qs)) +
      ((cy : ℝ) - (dy : ℝ) / 2)))

/-- `HarmonographRender.scale_path`: unzips the path, takes per-axis minima
and maxima, and maps every point through `scaleFun`.  `none` models the
exceptions of the source: `zip(*path)` raises on an empty path, and a
degenerate axis range makes `dx / (x_max - x_min)` raise
`ZeroDivisionError`. -/
noncomputable def scale_path (dx dy cx cy : ℤ) : List (ℝ × ℝ) → Option (List (ℤ × ℤ))
  | [] => none
  | q :: qs =>
    if pathXMax q qs - pathXMin q qs = 0 ∨ pathYMax q qs - pathYMin q qs = 0 then none
    else some ((q :: qs).map (scaleFun dx dy cx cy q qs))

/-! ## Claim theorems -/

/-- C1: for every curve, `evaluate(t)` sums each axis's oscillators at `t`;
with `center` set it returns `(sx + x_offset, sy + x_offset)` — the x
offset, not the y offset, is added to both coordinates — and with `center`
unset it returns `(sx, sy)` unchanged. -/
theorem harmonograph_eval_center (h : Harmonograph) (t : ℝ) :
    (h.center = true →
      h.eval t = (axisSum h.xset t + (h.x_offset : ℝ), axisSum h.yset t + (h.x_offset : ℝ))) ∧
    (h.center = false →
      h.eval t = (axisSum h.xset t, axisSum h.yset t)) := by
  cases hc : h.center <;> simp [Harmonograph.eval, hc]

/-- C1 witness: the centering branch of `harmonograph_eval_center` applied
to a concrete centered curve at `t = 0`. -/
theorem harmonograph_eval_center_witness :
    (Harmonograph.init [] [] true).eval 0 =
      (axisSum (Harmonograph.init [] [] true).xset 0 +
        ((Harmonograph.init [] [] true).x_offset : ℝ),
       axisSum (Harmonograph.init [] [] true).yset 0 +
        ((Harmonograph.init [] [] true).x_offset : ℝ)) :=
  (harmonograph_eval_center (Harmonograph.init [] [] true) 0).1 rfl

/-- C6 counterexample: the claim says the stored offset equals the plain sum
of the amplitudes plus 50, but `__init__` truncates the float sum with
`int(...)` first: for a single x term of amplitude 1/2 the stored offset is
50, not 50.5. -/
theorem harmonograph_offset_counterexample :
    (((Harmonograph.init [⟨1, 1/2, 0, 0⟩] [] true).x_offset : ℝ)) ≠
      (([⟨1, 1/2, 0, 0⟩] : List Pendulum).map Pendulum.amplitude).sum + 50 := by
  have h : (Harmonograph.init [⟨1, 1/2, 0, 0⟩] [] true).x_offset = 50 := by
    norm_num [Harmonograph.init, truncInt]
  rw [h]
  norm_num [Pendulum.amplitude]

/-- C6 (amended): the offsets stored at construction are the Python
`int`-truncation of each axis's amplitude sum, plus 50; they are fields of
the record fixed by `Harmonograph.init` and nothing recomputes them. -/
theorem harmonograph_offsets (xset yset : List Pendulum) (center : Bool) :
    (Harmonograph.init xset yset center).x_offset =
      truncInt ((xset.map Pendulum.amplitude).sum) + 50 ∧
    (Harmonograph.init xset yset center).y_offset =
      truncInt ((yset.map Pendulum.amplitude).sum) + 50 :=
  ⟨rfl, rfl⟩

/-! ## Calibration loop lemmas -/

/-- One unfolding step of the calibration loop. -/
theorem calibrateAux_succ (h : Harmonograph) (threshold : ℝ) (fuel ts : ℕ) :
    calibrateAux h threshold (fuel + 1) ts =
      if euclidean_distance (h.eval 0) (h.eval (Real.pi / ts)) < threshold then
        some (Real.pi / ts)
      else calibrateAux h threshold fuel (ts + 1) := rfl

/-- Whatever the calibration loop returns is `pi / ts` for the first counter
value at or after the starting one that passes the distance test. -/
theorem calibrateAux_some_spec (h : Harmonograph) (threshold : ℝ) :
    ∀ fuel ts₀ r, calibrateAux h threshold fuel ts₀ = some r →
      ∃ ts, ts₀ ≤ ts ∧ r = Real.pi / ts ∧ calibOk h threshold ts ∧
        ∀ k, ts₀ ≤ k → k < ts → ¬ calibOk h threshold k := by
  intro fuel
  induction fuel with
  | zero =>
    intro ts₀ r hr
    simp [calibrateAux] at hr
  | succ n ih =>
    intro ts₀ r hr
    rw [calibrateAux_succ] at hr
    split_ifs at hr with hok
    · injection hr with hr'
      exact ⟨ts₀, le_rfl, hr'.symm, hok, fun k hk1 hk2 => absurd hk1 (by omega)⟩
    · obtain ⟨ts, hts, hr', hok', hmin⟩ := ih (ts₀ + 1) r hr
      refine ⟨ts, by omega, hr', hok', ?_⟩
      intro k hk1 hk2
      rcases eq_or_lt_of_le hk1 with hk | hk
      · subst hk
        exact hok
      · exact hmin k (by omega) hk2

/-- If some counter value passes the distance test, enough fuel makes the
calibration loop return. -/
theorem calibrateAux_total (h : Harmonograph) (threshold : ℝ) :
    ∀ n ts₀, calibOk h threshold (ts₀ + n) →
      ∃ r, calibrateAux h threshold (n + 1) ts₀ = some r := by
  intro n
  induction n with
  | zero =>
    intro ts₀ hok
    refine ⟨Real.pi / ts₀, ?_⟩
    rw [calibrateAux_succ, if_pos]
    exact hok
  | succ n ih =>
    intro ts₀ hok
    by_cases h0 : euclidean_distance (h.eval 0) (h.eval (Real.pi / ts₀)) < threshold
    · exact ⟨Real.pi / ts₀, by rw [calibrateAux_succ, if_pos h0]⟩
    · have hshift : ts₀ + 1 + n = ts₀ + (n + 1) := by omega
      obtain ⟨r, hr⟩ := ih (ts₀ + 1) (by rwa [hshift])
      exact ⟨r, by rw [calibrateAux_succ, if_neg h0]; exact hr⟩

/-- C3: whenever the calibration loop returns, the returned resolution is
`pi / ts` for the smallest positive counter passing the distance test, it
is strictly positive, and stepping the curve by it moves less than the
threshold. -/
theorem calibrate_returns_min (h : Harmonograph) (threshold : ℝ) (fuel : ℕ) (r : ℝ)
    (hr : calibrateAux h threshold fuel 1 = some r) :
    0 < r ∧ euclidean_distance (h.eval 0) (h.eval r) < threshold ∧
      ∃ ts : ℕ, 0 < ts ∧ r = Real.pi / ts ∧ calibOk h threshold ts ∧
        ∀ k : ℕ, 0 < k → k < ts → ¬ calibOk h threshold k := by
  obtain ⟨ts, hts, hr', hok, hmin⟩ := calibrateAux_some_spec h threshold fuel 1 r hr
  subst hr'
  have htpos : (0 : ℝ) < ts := by
    have : 0 < ts := by omega
    exact_mod_cast this
  refine ⟨div_pos Real.pi_pos htpos, hok, ts, by omega, rfl, hok, ?_⟩
  intro k hk1 hk2
  exact hmin k (by omega) hk2

/-- C3 witness: on the oscillator-free curve the very first candidate step
already passes a threshold of 1, and `calibrate_returns_min` applies. -/
theorem calibrate_returns_min_witness :
    calibrateAux (Harmonograph.init [] [] true) 1 1 1 = some (Real.pi / (1 : ℕ)) ∧
      (0 < Real.pi / ((1 : ℕ) : ℝ) ∧
        euclidean_distance ((Harmonograph.init [] [] true).eval 0)
          ((Harmonograph.init [] [] true).eval (Real.pi / ((1 : ℕ) : ℝ))) < 1 ∧
        ∃ ts : ℕ, 0 < ts ∧ Real.pi / ((1 : ℕ) : ℝ) = Real.pi / ts ∧
          calibOk (Harmonograph.init [] [] true) 1 ts ∧
          ∀ k : ℕ, 0 < k → k < ts → ¬ calibOk (Harmonograph.init [] [] true) 1 k) := by
  have hev : ∀ t : ℝ, (Harmonograph.init [] [] true).eval t = (50, 50) := by
    intro t
    norm_num [Harmonograph.eval, Harmonograph.init, axisSum, truncInt]
  have hA : calibrateAux (Harmonograph.init [] [] true) 1 1 1 = some (Real.pi / (1 : ℕ)) := by
    rw [calibrateAux_succ, if_pos]
    rw [hev, hev]
    norm_num [euclidean_distance]
  exact ⟨hA, calibrate_returns_min (Harmonograph.init [] [] true) 1 1 (Real.pi / (1 : ℕ)) hA⟩

/-- C9: the calibration loop terminates (returns under some fuel) exactly
when some positive counter value passes the distance test; with a
non-positive threshold no counter can pass, so no amount of fuel makes the
unbounded search return. -/
theorem calibrate_termination (h : Harmonograph) (threshold : ℝ) :
    ((∃ fuel r, calibrateAux h threshold fuel 1 = some r) ↔
      ∃ ts : ℕ, 0 < ts ∧ calibOk h threshold ts) ∧
    (threshold ≤ 0 → ∀ fuel, calibrateAux h threshold fuel 1 = none) := by
  constructor
  · constructor
    · rintro ⟨fuel, r, hr⟩
      obtain ⟨ts, hts, _, hok, _⟩ := calibrateAux_some_spec h threshold fuel 1 r hr
      exact ⟨ts, by omega, hok⟩
    · rintro ⟨ts, hts, hok⟩
      have hshift : 1 + (ts - 1) = ts := by omega
      obtain ⟨r, hr⟩ := calibrateAux_total h threshold (ts - 1) 1 (by rwa [hshift])
      exact ⟨ts - 1 + 1, r, hr⟩
  · intro hθ fuel
    cases hc : calibrateAux h threshold fuel 1 with
    | none => rfl
    | some r =>
      obtain ⟨ts, _, _, hok, _⟩ := calibrateAux_some_spec h threshold fuel 1 r hc
      have hok' : euclidean_distance (h.eval 0) (h.eval (Real.pi / ts)) < threshold := hok
      have h0 : (0 : ℝ) ≤ euclidean_distance (h.eval 0) (h.eval (Real.pi / ts)) :=
        Real.sqrt_nonneg _
      linarith

/-- C9 witness: with threshold 0 the loop never returns, here checked with
fuel 5 on a concrete curve. -/
theorem calibrate_termination_witness :
    (0 : ℝ) ≤ 0 ∧ calibrateAux (Harmonograph.init [] [] true) 0 5 1 = none :=
  ⟨le_refl 0, (calibrate_termination (Harmonograph.init [] [] true) 0).2 (le_refl 0) 5⟩

/-! ## Convergence detector lemmas -/

/-- The distance from a point to itself is zero. -/
theorem euclidean_distance_self (p : ℝ × ℝ) : euclidean_distance p p = 0 := by
  simp [euclidean_distance]

/-- With a previous position recorded and room in the window, a `test` call
pushes the new distance without truncating anything. -/
theorem newValues_cons (S : ℤ) (t : ℝ) (vals : List ℝ) (lp pos : ℝ × ℝ)
    (h : (vals.length : ℤ) + 1 ≤ S) :
    DistanceStop.newValues ⟨S, t, vals, some lp⟩ pos =
      euclidean_distance lp pos :: vals := by
  simp only [DistanceStop.newValues, pySliceTo]
  rw [if_pos (by omega : (0 : ℤ) ≤ S)]
  apply List.take_of_length_le
  simp only [List.length_cons]
  omega

/-- With a previous position recorded and strictly fewer than `steps - 1`
distances stored, a `test` call records the distance and returns `false`. -/
theorem test_step_false (S : ℤ) (t : ℝ) (vals : List ℝ) (lp pos : ℝ × ℝ)
    (h : (vals.length : ℤ) + 1 < S) :
    DistanceStop.test ⟨S, t, vals, some lp⟩ pos =
      (some false, ⟨S, t, euclidean_distance lp pos :: vals, some pos⟩) := by
  have hnv := newValues_cons S t vals lp pos (by omega)
  have hc : (((euclidean_distance lp pos :: vals).length : ℤ)) < S := by
    simp only [List.length_cons]
    push_cast
    omega
  simp only [DistanceStop.test, hnv]
  rw [if_pos hc]

/-- Running the detector over an appended list splits into two runs with the
state threaded through. -/
theorem runDetector_append (d : DistanceStop) (ps qs : List (ℝ × ℝ)) :
    runDetector d (ps ++ qs) =
      ((runDetector d ps).1 ++ (runDetector (runDetector d ps).2 qs).1,
       (runDetector (runDetector d ps).2 qs).2) := by
  induction ps generalizing d with
  | nil => simp [runDetector]
  | cons p ps ih => simp [runDetector, ih]

/-- While the window stays short of `steps`, every call answers `false` and
the window grows by one distance per call. -/
theorem runDetector_all_false (S : ℤ) (t : ℝ) :
    ∀ (ps : List (ℝ × ℝ)) (vals : List ℝ) (lp : ℝ × ℝ),
      (vals.length : ℤ) + ps.length < S →
      (runDetector ⟨S, t, vals, some lp⟩ ps).1 = List.replicate ps.length (some false) ∧
      ∃ vals' lp', (runDetector ⟨S, t, vals, some lp⟩ ps).2 = ⟨S, t, vals', some lp'⟩ ∧
        vals'.length = vals.length + ps.length := by
  intro ps
  induction ps with
  | nil =>
    intro vals lp _
    exact ⟨rfl, vals, lp, rfl, by simp⟩
  | cons p ps ih =>
    intro vals lp hlen
    simp only [List.length_cons] at hlen
    have hstep := test_step_false S t vals lp p (by push_cast at hlen ⊢; omega)
    simp only [runDetector, hstep]
    obtain ⟨h1, vals', lp', h2, h3⟩ :=
      ih (euclidean_distance lp p :: vals) p
        (by simp only [List.length_cons]; push_cast at hlen ⊢; omega)
    refine ⟨?_, vals', lp', h2, ?_⟩
    · rw [h1]
      simp [List.replicate_succ]
    · rw [h3]
      simp only [List.length_cons]
      omega

/-- Feeding the same point repeatedly while the window has room records only
zero distances and answers `false` each time. -/
theorem runDetector_same_point (S : ℤ) (t : ℝ) (p : ℝ × ℝ) :
    ∀ (m v : ℕ), (v + m : ℤ) < S →
      runDetector ⟨S, t, List.replicate v 0, some p⟩ (List.replicate m p) =
        (List.replicate m (some false), ⟨S, t, List.replicate (v + m) 0, some p⟩) := by
  intro m
  induction m with
  | zero =>
    intro v h
    simp [runDetector]
  | succ n ih =>
    intro v h
    push_cast at h
    have hstep := test_step_false S t (List.replicate v 0) p p
      (by simp only [List.length_replicate]; omega)
    rw [euclidean_distance_self] at hstep
    have h0 : (0 : ℝ) :: List.replicate v 0 = List.replicate (v + 1) (0 : ℝ) :=
      (List.replicate_succ 0 v).symm
    rw [h0] at hstep
    rw [List.replicate_succ]
    simp only [runDetector, hstep]
    have hn := ih (v + 1) (by push_cast; omega)
    have harith : v + 1 + n = v + (n + 1) := by omega
    rw [hn, harith, List.replicate_succ]

/-- A full window of zero distances makes `test` answer `true` for any
positive threshold. -/
theorem test_full_zero (S : ℕ) (t : ℝ) (p : ℝ × ℝ) (hS : 1 ≤ S) (ht : 0 < t) :
    (DistanceStop.test ⟨(S : ℤ), t, List.replicate (S - 1) 0, some p⟩ p).1 = some true := by
  have hnv : DistanceStop.newValues ⟨(S : ℤ), t, List.replicate (S - 1) 0, some p⟩ p =
      List.replicate S (0 : ℝ) := by
    rw [newValues_cons (S : ℤ) t _ p p (by simp only [List.length_replicate]; omega)]
    rw [euclidean_distance_self, ← List.replicate_succ]
    congr 1
    omega
  have hc1 : ¬ (((List.replicate S (0 : ℝ)).length : ℤ) < (S : ℤ)) := by
    simp
  have hc2 : ¬ ((List.replicate S (0 : ℝ)).length = 0) := by
    simp
    omega
  have hc3 : (List.replicate S (0 : ℝ)).sum / ((List.replicate S (0 : ℝ)).length : ℝ) < t := by
    simp
    exact ht
  simp only [DistanceStop.test, hnv]
  rw [if_neg hc1, if_neg hc2, if_pos hc3]

/-- C4: with window size `steps >= 1` and a positive threshold, the detector
answers `false` on each of the first `steps` calls whatever the positions
are; fed `steps + 1` identical points it answers `true` exactly on call
`steps + 1`; and in general a call answers `true` exactly when the updated
window holds `steps` distances whose arithmetic mean is strictly below the
threshold. -/
theorem distanceStop_test_spec (S : ℕ) (t : ℝ) (p₀ : ℝ × ℝ) (hS : 1 ≤ S) (ht : 0 < t) :
    (∀ ps : List (ℝ × ℝ), ps.length ≤ S →
      (runDetector (DistanceStop.init S t) ps).1 = List.replicate ps.length (some false)) ∧
    ((runDetector (DistanceStop.init S t) (List.replicate (S + 1) p₀)).1 =
      List.replicate S (some false) ++ [some true]) ∧
    (∀ d : DistanceStop, d.steps = (S : ℤ) → d.threshold = t → d.values.length ≤ S →
      ∀ pos, ((d.test pos).1 = some true ↔
        ((d.newValues pos).length = S ∧
          (d.newValues pos).sum / ((d.newValues pos).length : ℝ) < t))) := by
  have hfirst : ∀ p : ℝ × ℝ, (DistanceStop.init (S : ℤ) t).test p =
      (some false, ⟨(S : ℤ), t, [], some p⟩) := by
    intro p
    simp only [DistanceStop.test, DistanceStop.newValues, DistanceStop.init]
    rw [if_pos (by exact_mod_cast hS : ((List.length ([] : List ℝ)) : ℤ) < (S : ℤ))]
  refine ⟨?_, ?_, ?_⟩
  · intro ps hps
    cases ps with
    | nil => simp [runDetector]
    | cons p ps' =>
      simp only [List.length_cons] at hps
      simp only [runDetector, hfirst]
      obtain ⟨ha, _⟩ := runDetector_all_false (S : ℤ) t ps' [] p
        (by simp only [List.length_nil]; push_cast; omega)
      rw [ha]
      simp [List.replicate_succ]
  · have hsplit : List.replicate (S + 1) p₀ = p₀ :: (List.replicate (S - 1) p₀ ++ [p₀]) := by
      rw [List.replicate_succ]
      congr 1
      conv_lhs => rw [show S = S - 1 + 1 by omega]
      rw [List.replicate_succ']
    rw [hsplit]
    simp only [runDetector, hfirst]
    rw [runDetector_append]
    have hsp := runDetector_same_point (S : ℤ) t p₀ (S - 1) 0 (by push_cast; omega)
    simp only [List.replicate_zero, Nat.zero_add] at hsp
    rw [hsp]
    simp only [runDetector]
    rw [test_full_zero S t p₀ hS ht]
    rw [show List.replicate S (some false) = some false :: List.replicate (S - 1) (some false) by
      conv_lhs => rw [show S = S - 1 + 1 by omega]
      rw [List.replicate_succ]]
    simp
  · intro d h1 h2 h3 pos
    have hvlen : (d.newValues pos).length ≤ S := by
      rw [DistanceStop.newValues]
      cases hlp : d.last_pos with
      | none => exact h3
      | some lp =>
        simp only [pySliceTo]
        rw [if_pos (by rw [h1]; positivity)]
        calc (List.take d.steps.toNat (euclidean_distance lp pos :: d.values)).length
            ≤ d.steps.toNat := by rw [List.length_take]; omega
          _ ≤ S := by rw [h1]; omega
    constructor
    · intro htest
      simp only [DistanceStop.test] at htest
      split_ifs at htest with c1 c2 c3
      · exact absurd htest (by simp)
      · rw [h1] at c1
        refine ⟨by omega, by rwa [h2] at c3⟩
      · exact absurd htest (by simp)
    · rintro ⟨hlen, havg⟩
      have hc1 : ¬ (((d.newValues pos).length : ℤ) < d.steps) := by
        rw [h1, hlen]
        omega
      have hc2 : ¬ ((d.newValues pos).length = 0) := by
        omega
      have hc3 : (d.newValues pos).sum / ((d.newValues pos).length : ℝ) < d.threshold := by
        rwa [h2]
      simp only [DistanceStop.test]
      rw [if_neg hc1, if_neg hc2, if_pos hc3]

/-- C4 witness: `distanceStop_test_spec` at window size 2, threshold 1 and
the position `(0, 0)` fed three times gives `false, false, true`. -/
theorem distanceStop_test_spec_witness :
    (1 ≤ 2 ∧ (0 : ℝ) < 1) ∧
      (runDetector (DistanceStop.init ((2 : ℕ) : ℤ) 1)
          (List.replicate (2 + 1) ((0 : ℝ), (0 : ℝ)))).1 =
        List.replicate 2 (some false) ++ [some true] :=
  ⟨⟨by decide, by norm_num⟩,
    (distanceStop_test_spec 2 1 ((0 : ℝ), (0 : ℝ)) (by decide) (by norm_num)).2.1⟩

/-- C8 counterexample: the claim says non-positive `steps`/`threshold` are
rejected at construction; in the source `DistanceStop.__init__` validates
nothing — `DistanceStop(0, -1)` constructs a normal detector, and the
failure only appears on the first `test` call, as a `ZeroDivisionError`
(`none`). -/
theorem distanceStop_init_counterexample :
    DistanceStop.init 0 (-1) =
      { steps := 0, threshold := -1, values := [], last_pos := none } ∧
    ((DistanceStop.init 0 (-1)).test ((0 : ℝ), (0 : ℝ))).1 = none := by
  refine ⟨rfl, ?_⟩
  simp only [DistanceStop.test, DistanceStop.newValues, DistanceStop.init]
  norm_num

/-- C8 (amended): the detector constructor stores any `steps` and
`threshold` unchecked; with `steps <= 0` the failure is deferred to the
first `test` call, which divides by zero (`none`). -/
theorem distanceStop_init_no_validation (steps : ℤ) (threshold : ℝ) (pos : ℝ × ℝ) :
    DistanceStop.init steps threshold =
      { steps := steps, threshold := threshold, values := [], last_pos := none } ∧
    (steps ≤ 0 → ((DistanceStop.init steps threshold).test pos).1 = none) := by
  refine ⟨rfl, fun hs => ?_⟩
  simp only [DistanceStop.test, DistanceStop.newValues, DistanceStop.init]
  rw [if_neg (by simp only [List.length_nil]; omega)]
  simp

/-- C8 witness: `distanceStop_init_no_validation` at `steps = 0`,
`threshold = -1`. -/
theorem distanceStop_init_no_validation_witness :
    ((0 : ℤ) ≤ 0 ∧ DistanceStop.init 0 (-1) =
      { steps := 0, threshold := -1, values := [], last_pos := none }) ∧
    ((DistanceStop.init 0 (-1)).test ((1 : ℝ), (2 : ℝ))).1 = none :=
  ⟨⟨le_refl 0, (distanceStop_init_no_validation 0 (-1) ((1 : ℝ), (2 : ℝ))).1⟩,
    (distanceStop_init_no_validation 0 (-1) ((1 : ℝ), (2 : ℝ))).2 (le_refl 0)⟩

/-! ## Generation loop lemmas -/

/-- Unfolding the generation loop with exhausted fuel. -/
theorem generateAux_zero (h : Harmonograph) (res tsmin : ℝ) (tm : Option ℝ)
    (step : ℕ) (d : DistanceStop) :
    generateAux h res tsmin tm 0 step d = none := rfl

/-- One unfolding step of the generation loop in bound mode. -/
theorem generateAux_bound_succ (h : Harmonograph) (res tsmin m : ℝ)
    (fuel step : ℕ) (d : DistanceStop) :
    generateAux h res tsmin (some m) (fuel + 1) step d =
      if res * step + tsmin < m then
        Option.map (fun l => h.eval (res * step + tsmin) :: l)
          (generateAux h res tsmin (some m) fuel (step + 1) d)
      else some [h.eval (res * step + tsmin)] := rfl

/-- One unfolding step of the generation loop in convergence mode. -/
theorem generateAux_conv_succ (h : Harmonograph) (res tsmin : ℝ)
    (fuel step : ℕ) (d : DistanceStop) :
    generateAux h res tsmin none (fuel + 1) step d =
      match d.test (h.eval (res * step + tsmin)) with
      | (some b, d') =>
        if b then some [h.eval (res * step + tsmin)]
        else Option.map (fun l => h.eval (res * step + tsmin) :: l)
          (generateAux h res tsmin none fuel (step + 1) d')
      | (none, _) => none := rfl

/-- Any list the generation loop returns is nonempty and its `i`-th entry is
the curve evaluated at `res * (start + i) + tsmin`, in both modes. -/
theorem generateAux_points (h : Harmonograph) (res tsmin : ℝ) (tm : Option ℝ) :
    ∀ (fuel s : ℕ) (d : DistanceStop) (l : List (ℝ × ℝ)),
      generateAux h res tsmin tm fuel s d = some l →
      l ≠ [] ∧ ∀ i (hi : i < l.length),
        l.get ⟨i, hi⟩ = h.eval (res * ((s + i : ℕ) : ℝ) + tsmin) := by
  intro fuel
  induction fuel with
  | zero =>
    intro s d l hl
    rw [generateAux_zero] at hl
    exact absurd hl (by simp)
  | succ n ih =>
    intro s d l hl
    cases tm with
    | some m =>
      rw [generateAux_bound_succ] at hl
      split_ifs at hl with hc
      · cases hrec : generateAux h res tsmin (some m) n (s + 1) d with
        | none => rw [hrec] at hl; exact absurd hl (by simp)
        | some l' =>
          rw [hrec] at hl
          simp only [Option.map_some', Option.some.injEq] at hl
          obtain ⟨_, ih2⟩ := ih (s + 1) d l' hrec
          subst hl
          refine ⟨by simp, ?_⟩
          intro i hi
          cases i with
          | zero => simp [List.get]
          | succ j =>
            simp only [List.get, List.length_cons] at hi ⊢
            rw [ih2 j (by omega)]
            congr 2
            push_cast
            ring
      · simp only [Option.some.injEq] at hl
        subst hl
        refine ⟨by simp, ?_⟩
        intro i hi
        simp only [List.length_singleton] at hi
        interval_cases i
        simp [List.get]
    | none =>
      rw [generateAux_conv_succ] at hl
      rcases htest : d.test (h.eval (res * s + tsmin)) with ⟨ob, d₂⟩
      rw [htest] at hl
      cases ob with
      | none => exact absurd hl (by simp)
      | some b =>
        cases b with
        | true =>
          simp only [if_true, Option.some.injEq] at hl
          subst hl
          refine ⟨by simp, ?_⟩
          intro i hi
          simp only [List.length_singleton] at hi
          interval_cases i
          simp [List.get]
        | false =>
          simp only [Bool.false_eq_true, if_false] at hl
          cases hrec : generateAux h res tsmin none n (s + 1) d₂ with
          | none => rw [hrec] at hl; exact absurd hl (by simp)
          | some l' =>
            rw [hrec] at hl
            simp only [Option.map_some', Option.some.injEq] at hl
            obtain ⟨_, ih2⟩ := ih (s + 1) d₂ l' hrec
            subst hl
            refine ⟨by simp, ?_⟩
            intro i hi
            cases i with
            | zero => simp [List.get]
            | succ j =>
              simp only [List.get, List.length_cons] at hi ⊢
              rw [ih2 j (by omega)]
              congr 2
              push_cast
              ring

/-- In bound mode every yielded point except possibly the last has its
timestamp strictly below the bound, and the last one's timestamp reaches or
exceeds it. -/
theorem generateAux_bound_stop (h : Harmonograph) (res tsmin m : ℝ) :
    ∀ (fuel s : ℕ) (d : DistanceStop) (l : List (ℝ × ℝ)),
      generateAux h res tsmin (some m) fuel s d = some l →
      (∀ i : ℕ, i + 1 < l.length → res * ((s + i : ℕ) : ℝ) + tsmin < m) ∧
        m ≤ res * (((s + (l.length - 1)) : ℕ) : ℝ) + tsmin := by
  intro fuel
  induction fuel with
  | zero =>
    intro s d l hl
    rw [generateAux_zero] at hl
    exact absurd hl (by simp)
  | succ n ih =>
    intro s d l hl
    rw [generateAux_bound_succ] at hl
    split_ifs at hl with hc
    · cases hrec : generateAux h res tsmin (some m) n (s + 1) d with
      | none => rw [hrec] at hl; exact absurd hl (by simp)
      | some l' =>
        rw [hrec] at hl
        simp only [Option.map_some', Option.some.injEq] at hl
        obtain ⟨hstop, hlast⟩ := ih (s + 1) d l' hrec
        have hne := (generateAux_points h res tsmin (some m) n (s + 1) d l' hrec).1
        have hlen1 : 1 ≤ l'.length := List.length_pos.mpr hne
        subst hl
        constructor
        · intro i hi
          cases i with
          | zero => simpa using hc
          | succ j =>
            simp only [List.length_cons] at hi
            have hj := hstop j (by omega)
            rw [show s + (j + 1) = s + 1 + j by omega]
            exact hj
        · simp only [List.length_cons]
          rw [show s + (l'.length + 1 - 1) = s + 1 + (l'.length - 1) by omega]
          exact hlast
    · simp only [Option.some.injEq] at hl
      subst hl
      constructor
      · intro i hi
        simp only [List.length_singleton] at hi
        omega
      · simp only [List.length_singleton]
        simpa using not_lt.mp hc

/-- C5: every list of points the generation loop returns has its `n`-th
entry equal to the curve at `t = resolution * n + tsmin` (both modes); and
in bound mode the run is nonempty, all points before the last have
`t < tsmax`, and the last point is the first with `t >= tsmax`. -/
theorem generate_spec (h : Harmonograph) (res tsmin : ℝ) (d : DistanceStop) :
    (∀ (tm : Option ℝ) (fuel : ℕ) (l : List (ℝ × ℝ)),
      generateAux h res tsmin tm fuel 0 d = some l →
      ∀ i (hi : i < l.length), l.get ⟨i, hi⟩ = h.eval (res * (i : ℝ) + tsmin)) ∧
    (∀ (m : ℝ) (fuel : ℕ) (l : List (ℝ × ℝ)),
      generateAux h res tsmin (some m) fuel 0 d = some l →
      l ≠ [] ∧ (∀ i : ℕ, i + 1 < l.length → res * (i : ℝ) + tsmin < m) ∧
        m ≤ res * ((l.length - 1 : ℕ) : ℝ) + tsmin) := by
  constructor
  · intro tm fuel l hl i hi
    have hpt := (generateAux_points h res tsmin tm fuel 0 d l hl).2 i hi
    simpa using hpt
  · intro m fuel l hl
    refine ⟨(generateAux_points h res tsmin (some m) fuel 0 d l hl).1, ?_, ?_⟩
    · intro i hi
      have hs := (generateAux_bound_stop h res tsmin m fuel 0 d l hl).1 i hi
      simpa using hs
    · have hs := (generateAux_bound_stop h res tsmin m fuel 0 d l hl).2
      simpa using hs

/-- C5 witness: with `resolution = 1`, `tsmin = 0` and `tsmax = 0` the run
yields exactly one point, the curve at 0, and `generate_spec` applies. -/
theorem generate_spec_witness :
    generateAux (Harmonograph.init [] [] true) 1 0 (some 0) 1 0 (DistanceStop.init 30 1) =
      some [(Harmonograph.init [] [] true).eval 0] ∧
    ([(Harmonograph.init [] [] true).eval 0] ≠ [] ∧
      (∀ i : ℕ, i + 1 < [(Harmonograph.init [] [] true).eval 0].length →
        (1 : ℝ) * (i : ℝ) + 0 < 0) ∧
      (0 : ℝ) ≤ (1 : ℝ) *
        (([(Harmonograph.init [] [] true).eval 0].length - 1 : ℕ) : ℝ) + 0) := by
  have hA : generateAux (Harmonograph.init [] [] true) 1 0 (some 0) 1 0
      (DistanceStop.init 30 1) = some [(Harmonograph.init [] [] true).eval 0] := by
    have e := generateAux_bound_succ (Harmonograph.init [] [] true) 1 0 0 0 0
      (DistanceStop.init 30 1)
    norm_num at e
    exact e
  exact ⟨hA,
    (generate_spec (Harmonograph.init [] [] true) 1 0 (DistanceStop.init 30 1)).2
      0 1 [(Harmonograph.init [] [] true).eval 0] hA⟩

/-- C10: in bound mode the generation loop's behaviour does not depend on
the detector state at all — runs from any two detector states are equal, so
the convergence detector, though constructed, never ends a bounded run. -/
theorem generate_bound_ignores_detector (h : Harmonograph) (res tsmin m : ℝ) :
    ∀ (fuel step : ℕ) (d₁ d₂ : DistanceStop),
      generateAux h res tsmin (some m) fuel step d₁ =
        generateAux h res tsmin (some m) fuel step d₂ := by
  intro fuel
  induction fuel with
  | zero => intro step d₁ d₂; rfl
  | succ n ih =>
    intro step d₁ d₂
    rw [generateAux_bound_succ, generateAux_bound_succ, ih (step + 1) d₁ d₂]

/-- C2 counterexample: the claim describes the scaling with `floor`, but the
source truncates toward zero with Python `int()`.  Scaling the path
`[(0,0), (1,1)]` into a width-1 canvas centred at 0 gives `x_offset = -1/2`;
the point achieving the minimum maps to 0 in the code while the claimed
`floor` formula gives -1. -/
theorem scale_path_floor_counterexample :
    scale_path 1 1 0 0 [((0 : ℝ), (0 : ℝ)), ((1 : ℝ), (1 : ℝ))] =
      some [((0 : ℤ), (0 : ℤ)), ((0 : ℤ), (0 : ℤ))] ∧
    ⌊((0 : ℝ) - 0) * ((1 : ℝ) / (1 - 0)) + ((0 : ℝ) - (1 : ℝ) / 2)⌋ = -1 := by
  constructor
  · norm_num [scale_path, scaleFun, pathXMin, pathXMax, pathYMin, pathYMax,
      listMin, listMax, truncInt]
  · norm_num

/-- C2 (amended): with nondegenerate ranges, `scale_path` maps each point
`(x, y)` to
`(int((x - xMin)*xScale + xOffset), int((y - yMin)*yScale + yOffset))`
where `int` truncates toward zero; a point achieving `xMin` maps to
`int(xOffset)` and a point achieving `xMax` to `int(dx + xOffset)`, and
analogously for y. -/
theorem scale_path_spec (dx dy cx cy : ℤ) (q : ℝ × ℝ) (qs : List (ℝ × ℝ))
    (hx : pathXMin q qs < pathXMax q qs) (hy : pathYMin q qs < pathYMax q qs) :
    scale_path dx dy cx cy (q :: qs) =
      some ((q :: qs).map (scaleFun dx dy cx cy q qs)) ∧
    (∀ pt : ℝ × ℝ, pt.1 = pathXMin q qs →
      (scaleFun dx dy cx cy q qs pt).1 = truncInt ((cx : ℝ) - (dx : ℝ) / 2)) ∧
    (∀ pt : ℝ × ℝ, pt.1 = pathXMax q qs →
      (scaleFun dx dy cx cy q qs pt).1 =
        truncInt ((dx : ℝ) + ((cx : ℝ) - (dx : ℝ) / 2))) ∧
    (∀ pt : ℝ × ℝ, pt.2 = pathYMin q qs →
      (scaleFun dx dy cx cy q qs pt).2 = truncInt ((cy : ℝ) - (dy : ℝ) / 2)) ∧
    (∀ pt : ℝ × ℝ, pt.2 = pathYMax q qs →
      (scaleFun dx dy cx cy q qs pt).2 =
        truncInt ((dy : ℝ) + ((cy : ℝ) - (dy : ℝ) / 2))) := by
  have hxne : pathXMax q qs - pathXMin q qs ≠ 0 := sub_ne_zero.mpr (ne_of_gt hx)
  have hyne : pathYMax q qs - pathYMin q qs ≠ 0 := sub_ne_zero.mpr (ne_of_gt hy)
  refine ⟨?_, ?_, ?_, ?_, ?_⟩
  · simp only [scale_path]
    rw [if_neg (by push_neg; exact ⟨hxne, hyne⟩)]
  · intro pt hpt
    simp only [scaleFun]
    rw [hpt]
    congr 1
    ring
  · intro pt hpt
    simp only [scaleFun]
    rw [hpt]
    congr 1
    rw [mul_comm, div_mul_cancel₀ _ hxne]
  · intro pt hpt
    simp only [scaleFun]
    rw [hpt]
    congr 1
    ring
  · intro pt hpt
    simp only [scaleFun]
    rw [hpt]
    congr 1
    rw [mul_comm, div_mul_cancel₀ _ hyne]

/-- C2 witness: `scale_path_spec` on the path `[(0,0), (2,4)]` scaled to a
100 by 100 canvas centred at `(50, 50)`. -/
theorem scale_path_spec_witness :
    (pathXMin ((0 : ℝ), (0 : ℝ)) [((2 : ℝ), (4 : ℝ))] <
        pathXMax ((0 : ℝ), (0 : ℝ)) [((2 : ℝ), (4 : ℝ))]) ∧
    (pathYMin ((0 : ℝ), (0 : ℝ)) [((2 : ℝ), (4 : ℝ))] <
        pathYMax ((0 : ℝ), (0 : ℝ)) [((2 : ℝ), (4 : ℝ))]) ∧
    (scale_path 100 100 50 50 (((0 : ℝ), (0 : ℝ)) :: [((2 : ℝ), (4 : ℝ))]) =
      some ((((0 : ℝ), (0 : ℝ)) :: [((2 : ℝ), (4 : ℝ))]).map
        (scaleFun 100 100 50 50 ((0 : ℝ), (0 : ℝ)) [((2 : ℝ), (4 : ℝ))])) ∧
    (∀ pt : ℝ × ℝ, pt.1 = pathXMin ((0 : ℝ), (0 : ℝ)) [((2 : ℝ), (4 : ℝ))] →
      (scaleFun 100 100 50 50 ((0 : ℝ), (0 : ℝ)) [((2 : ℝ), (4 : ℝ))] pt).1 =
        truncInt (((50 : ℤ) : ℝ) - ((100 : ℤ) : ℝ) / 2)) ∧
    (∀ pt : ℝ × ℝ, pt.1 = pathXMax ((0 : ℝ), (0 : ℝ)) [((2 : ℝ), (4 : ℝ))] →
      (scaleFun 100 100 50 50 ((0 : ℝ), (0 : ℝ)) [((2 : ℝ), (4 : ℝ))] pt).1 =
        truncInt (((100 : ℤ) : ℝ) + (((50 : ℤ) : ℝ) - ((100 : ℤ) : ℝ) / 2))) ∧
    (∀ pt : ℝ × ℝ, pt.2 = pathYMin ((0 : ℝ), (0 : ℝ)) [((2 : ℝ), (4 : ℝ))] →
      (scaleFun 100 100 50 50 ((0 : ℝ), (0 : ℝ)) [((2 : ℝ), (4 : ℝ))] pt).2 =
        truncInt (((50 : ℤ) : ℝ) - ((100 : ℤ) : ℝ) / 2)) ∧
    (∀ pt : ℝ × ℝ, pt.2 = pathYMax ((0 : ℝ), (0 : ℝ)) [((2 : ℝ), (4 : ℝ))] →
      (scaleFun 100 100 50 50 ((0 : ℝ), (0 : ℝ)) [((2 : ℝ), (4 : ℝ))] pt).2 =
        truncInt (((100 : ℤ) : ℝ) + (((50 : ℤ) : ℝ) - ((100 : ℤ) : ℝ) / 2)))) := by
  have hx : pathXMin ((0 : ℝ), (0 : ℝ)) [((2 : ℝ), (4 : ℝ))] <
      pathXMax ((0 : ℝ), (0 : ℝ)) [((2 : ℝ), (4 : ℝ))] := by
    norm_num [pathXMin, pathXMax, listMin, listMax]
  have hy : pathYMin ((0 : ℝ), (0 : ℝ)) [((2 : ℝ), (4 : ℝ))] <
      pathYMax ((0 : ℝ), (0 : ℝ)) [((2 : ℝ), (4 : ℝ))] := by
    norm_num [pathYMin, pathYMax, listMin, listMax]
  exact ⟨hx, hy,
    scale_path_spec 100 100 50 50 ((0 : ℝ), (0 : ℝ)) [((2 : ℝ), (4 : ℝ))] hx hy⟩

/-- C7 counterexample: the claim says a single-point (degenerate-range) path
is scaled without raising; in the source the x range is zero, so
`dx / (x_max - x_min)` raises `ZeroDivisionError` (`none`). -/
theorem scale_path_single_point_counterexample :
    scale_path 100 100 50 50 [((1 : ℝ), (2 : ℝ))] = none := by
  norm_num [scale_path, pathXMin, pathXMax, listMin, listMax]

/-- C7 (amended): any path whose x range (or y range) is degenerate — in
particular any single-point path — makes `scale_path` raise a division
error rather than return normally. -/
theorem scale_path_degenerate (dx dy cx cy : ℤ) (q : ℝ × ℝ) (qs : List (ℝ × ℝ))
    (hdeg : pathXMax q qs - pathXMin q qs = 0 ∨ pathYMax q qs - pathYMin q qs = 0) :
    scale_path dx dy cx cy (q :: qs) = none := by
  simp only [scale_path]
  rw [if_pos hdeg]

/-- C7 witness: `scale_path_degenerate` on the one-point path `[(1, 2)]`. -/
theorem scale_path_degenerate_witness :
    (pathXMax ((1 : ℝ), (2 : ℝ)) [] - pathXMin ((1 : ℝ), (2 : ℝ)) [] = 0 ∨
      pathYMax ((1 : ℝ), (2 : ℝ)) [] - pathYMin ((1 : ℝ), (2 : ℝ)) [] = 0) ∧
    scale_path 7 9 3 4 (((1 : ℝ), (2 : ℝ)) :: []) = none := by
  have hd : pathXMax ((1 : ℝ), (2 : ℝ)) [] - pathXMin ((1 : ℝ), (2 : ℝ)) [] = 0 ∨
      pathYMax ((1 : ℝ), (2 : ℝ)) [] - pathYMin ((1 : ℝ), (2 : ℝ)) [] = 0 :=
    Or.inl (by norm_num [pathXMax, pathXMin, listMax, listMin])
  exact ⟨hd, scale_path_degenerate 7 9 3 4 ((1 : ℝ), (2 : ℝ)) [] hd⟩
